import Mathlib

/-!
# A verification model of the `bus` memory-bus emulator core

This file gives a shallow embedding of the Rust program in `src/main.rs`:
a `MemoryRange` key type, a `Bus` registry dispatching byte-granular
reads/writes to registered devices, and a sparse lazily-paged `Ram` store.

Machine integers (`u64`) are modelled as `Nat`; the one place where u64
overflow can occur (`base_address + size` inside `MemoryRange::contains`)
takes an explicit `% 2 ^ 64`, matching release-mode wrap-around semantics.
Rust slice-index panics are modelled by the `sliceError` outcome; the
`Err(InvalidAccess)` value by `invalidAccess`.
-/

set_option autoImplicit false

namespace BusModel

/-- Outcome of a read/write: `ok` models `Ok(_)`, `invalidAccess` models
`Err(Error::InvalidAccess)`, and `sliceError` models a Rust slice-bounds
panic (out-of-range indexing inside `page_slice` / `copy_from_slice`). -/
inductive RWResult (α : Type) where
  | ok : α → RWResult α
  | invalidAccess : RWResult α
  | sliceError : RWResult α
  deriving DecidableEq, Repr

/-- `MemoryRange { base_address: u64, size: u64 }`. -/
structure MemoryRange where
  base_address : Nat
  size : Nat
  deriving DecidableEq, Repr

/-- `MemoryRange::contains`: `addr >= base_address && addr < base_address + size`,
where the sum is a u64 addition (wrap-around modulo `2 ^ 64`). -/
def MemoryRange.contains (r : MemoryRange) (addr : Nat) : Bool :=
  decide (addr ≥ r.base_address) && decide (addr < (r.base_address + r.size) % 2 ^ 64)

/-- Interval-arithmetic overlap test between two ranges, used to phrase the
"pairwise non-overlapping registry" hypothesis decidably. -/
def MemoryRange.overlaps (r r' : MemoryRange) : Bool :=
  decide (max r.base_address r'.base_address <
    min ((r.base_address + r.size) % 2 ^ 64) ((r'.base_address + r'.size) % 2 ^ 64))

/-- The backing map of `Ram`: `sparse_memory_map: HashMap<u64, Vec<u8>>`,
modelled as an association list from page ids to page contents. -/
abbrev RamMap : Type := List (Nat × List Nat)

namespace Ram

/-- `Ram::PAGE_SIZE`. -/
def PAGE_SIZE : Nat := 0x1000

/-- `Ram::PAGE_OFFSET_BITS`. -/
def PAGE_OFFSET_BITS : Nat := 12

/-- The page id computed by `page_slice`: `ptr >> Self::PAGE_OFFSET_BITS`. -/
def page_id (ptr : Nat) : Nat := ptr >>> PAGE_OFFSET_BITS

/-- The page offset computed by `page_slice`:
`ptr & (1 << Self::PAGE_OFFSET_BITS - 1)`.  NB Rust parses this as
`ptr & (1 << (PAGE_OFFSET_BITS - 1))` (shift binds looser than subtraction),
i.e. `ptr & 0x800`, so the parenthesisation below is deliberate. -/
def page_offset (ptr : Nat) : Nat := ptr &&& (1 <<< (PAGE_OFFSET_BITS - 1))

end Ram

/-- `HashMap::get`-style lookup in the sparse page map. -/
def ramLookup : RamMap → Nat → Option (List Nat)
  | [], _ => none
  | (k, v) :: rest, pid => if k = pid then some v else ramLookup rest pid

/-- `HashMap` insert-or-replace of a page. -/
def ramStore : RamMap → Nat → List Nat → RamMap
  | [], pid, v => [(pid, v)]
  | (k, w) :: rest, pid, v =>
    if k = pid then (pid, v) :: rest else (k, w) :: ramStore rest pid v

/-- `self.sparse_memory_map.entry(page_id).or_insert(vec![0; PAGE_SIZE])`:
returns the page at `pid`, allocating it zero-filled when absent, together
with the map after the (possible) allocation. -/
def ramEnsure (m : RamMap) (pid : Nat) : List Nat × RamMap :=
  match ramLookup m pid with
  | some page => (page, m)
  | none => (List.replicate Ram.PAGE_SIZE 0, m ++ [(pid, List.replicate Ram.PAGE_SIZE 0)])

namespace Ram

/-- `Ram::page_slice(ptr, len)`: computes `(page_id, page_offset)`,
lazily allocates the page, and returns the contents of the sub-slice
`[page_offset, page_offset + len)` together with the updated map.
`sliceError` models the Rust panic when the index range exceeds the page. -/
def page_slice (m : RamMap) (ptr len : Nat) : RWResult (List Nat) × RamMap :=
  let pid := page_id ptr
  let poff := page_offset ptr
  let page := (ramEnsure m pid).1
  let m' := (ramEnsure m pid).2
  if poff + len ≤ page.length then
    (.ok ((page.drop poff).take len), m')
  else
    (.sliceError, m')

/-- `<Ram as Device>::read`: `buf.copy_from_slice(&self.page_slice(ptr, buf.len()))`.
The returned bytes model the contents copied into `buf`. -/
def read (m : RamMap) (ptr len : Nat) : RWResult (List Nat) × RamMap :=
  page_slice m ptr len

/-- `<Ram as Device>::write`: `self.page_slice(ptr, buf.len()).copy_from_slice(&buf)`,
i.e. splice `buf` over the sub-slice `[page_offset, page_offset + buf.len())`. -/
def write (m : RamMap) (ptr : Nat) (buf : List Nat) : RWResult Unit × RamMap :=
  let pid := page_id ptr
  let poff := page_offset ptr
  let page := (ramEnsure m pid).1
  let m' := (ramEnsure m pid).2
  if poff + buf.length ≤ page.length then
    (.ok (), ramStore m' pid (page.take poff ++ buf ++ page.drop (poff + buf.length)))
  else
    (.sliceError, m')

end Ram

/-- The `Device` trait objects of the program: either a `Ram` leaf or a
nested `Bus` (whose registry is a base-address-ordered list of
`(MemoryRange, Device)` entries, modelling the `BTreeMap`). -/
inductive Device where
  | ram : RamMap → Device
  | bus : List (MemoryRange × Device) → Device

/-- The registry list of a composite device (`Bus::devices`). -/
def Device.busDevices : Device → List (MemoryRange × Device)
  | .ram _ => []
  | .bus devs => devs

/-- `Bus::get_device(addr)`: `devices.range_mut(..= key addr).rev().find(contains)` —
restrict to registered keys with `base_address <= addr` (the `BTreeMap` is
ordered by `base_address` only), scan from the largest base downward, and
return the first entry whose range contains `addr`. -/
def Bus.get_device (devices : List (MemoryRange × Device)) (addr : Nat) :
    Option (MemoryRange × Device) :=
  ((devices.filter fun p => decide (p.1.base_address ≤ addr)).reverse).find?
    fun p => p.1.contains addr

/-- Recursive characterisation of `Bus::get_device`'s descending scan:
the *last* entry of the (ascending) registry list whose range contains
`addr`.  Proven equal to `Bus.get_device` below. -/
def dispatchTarget : List (MemoryRange × Device) → Nat → Option (MemoryRange × Device)
  | [], _ => none
  | (r, d) :: rest, addr =>
    match dispatchTarget rest addr with
    | some p => some p
    | none => if r.contains addr then some (r, d) else none

/-- `BTreeMap::insert` on a base-address-sorted registry, with `MemoryRange`
keys compared by `base_address` only.  When an entry with an equal base
already exists its *value* is replaced and the stored key is kept
("the key is not updated"), exactly as `BTreeMap::insert` behaves. -/
def insertDevice : List (MemoryRange × Device) → MemoryRange → Device →
    List (MemoryRange × Device)
  | [], r, d => [(r, d)]
  | (r', d') :: rest, r, d =>
    if r.base_address < r'.base_address then (r, d) :: (r', d') :: rest
    else if r.base_address = r'.base_address then (r', d) :: rest
    else (r', d') :: insertDevice rest r d

/-- `Bus::register(device, base_address, size)`:
`devices.insert(MemoryRange { base_address, size }, device)`. -/
def Bus.register (devices : List (MemoryRange × Device)) (device : Device)
    (base_address size : Nat) : List (MemoryRange × Device) :=
  insertDevice devices ⟨base_address, size⟩ device

mutual

/-- `Device::read` for the two concrete devices.  For a `Bus` this is
`let (range, device) = self.get_device(ptr)?; device.read(ptr - range.base_address, buf)`;
the state component is the device after the call (pages may be allocated). -/
def Device.read : Device → Nat → Nat → RWResult (List Nat) × Device
  | .ram m, ptr, len =>
    match Ram.read m ptr len with
    | (res, m') => (res, .ram m')
  | .bus devs, ptr, len =>
    match busReadGo devs ptr len with
    | (res, devs') => (res, .bus devs')

/-- `Device::write`, analogously. -/
def Device.write : Device → Nat → List Nat → RWResult Unit × Device
  | .ram m, ptr, buf =>
    match Ram.write m ptr buf with
    | (res, m') => (res, .ram m')
  | .bus devs, ptr, buf =>
    match busWriteGo devs ptr buf with
    | (res, devs') => (res, .bus devs')

/-- `<Bus as Device>::read` over the registry list: dispatch to the *last*
entry (in ascending base order) whose range contains `addr` — the entry
`get_device`'s descending scan finds first — and delegate with local offset
`addr - base_address`; `invalidAccess` when no range contains `addr`. -/
def busReadGo : List (MemoryRange × Device) → Nat → Nat →
    RWResult (List Nat) × List (MemoryRange × Device)
  | [], _, _ => (.invalidAccess, [])
  | (r, d) :: rest, addr, len =>
    if rest.any fun p => p.1.contains addr then
      match busReadGo rest addr len with
      | (res, rest') => (res, (r, d) :: rest')
    else if r.contains addr then
      match Device.read d (addr - r.base_address) len with
      | (res, d') => (res, (r, d') :: rest)
    else (.invalidAccess, (r, d) :: rest)

/-- `<Bus as Device>::write` over the registry list. -/
def busWriteGo : List (MemoryRange × Device) → Nat → List Nat →
    RWResult Unit × List (MemoryRange × Device)
  | [], _, _ => (.invalidAccess, [])
  | (r, d) :: rest, addr, buf =>
    if rest.any fun p => p.1.contains addr then
      match busWriteGo rest addr buf with
      | (res, rest') => (res, (r, d) :: rest')
    else if r.contains addr then
      match Device.write d (addr - r.base_address) buf with
      | (res, d') => (res, (r, d') :: rest)
    else (.invalidAccess, (r, d) :: rest)

end

/-! ## Basic lemmas about `contains` and dispatch -/

theorem MemoryRange.contains_iff {r : MemoryRange} {a : Nat} :
    r.contains a = true ↔ r.base_address ≤ a ∧ a < (r.base_address + r.size) % 2 ^ 64 := by
  simp [MemoryRange.contains]

theorem MemoryRange.contains_base_le {r : MemoryRange} {a : Nat}
    (h : r.contains a = true) : r.base_address ≤ a :=
  (MemoryRange.contains_iff.mp h).1

/-- If the range does not wrap, `contains` is the plain interval test. -/
theorem MemoryRange.contains_of_no_wrap {r : MemoryRange} {a : Nat}
    (hwf : r.base_address + r.size < 2 ^ 64)
    (h1 : r.base_address ≤ a) (h2 : a < r.base_address + r.size) :
    r.contains a = true := by
  rw [MemoryRange.contains_iff, Nat.mod_eq_of_lt hwf]
  exact ⟨h1, h2⟩

/-- Two ranges that both contain an address overlap. -/
theorem MemoryRange.overlaps_of_contains {r r' : MemoryRange} {a : Nat}
    (h : r.contains a = true) (h' : r'.contains a = true) : r.overlaps r' = true := by
  rw [MemoryRange.contains_iff] at h h'
  simp only [MemoryRange.overlaps, decide_eq_true_eq]
  exact lt_min_iff.mpr ⟨lt_of_le_of_lt (max_le h.1 h'.1) h.2,
    lt_of_le_of_lt (max_le h.1 h'.1) h'.2⟩

theorem dispatchTarget_nil {a : Nat} : dispatchTarget [] a = none := rfl

/-- `get_device` computes exactly the last containing entry. -/
theorem get_device_eq_dispatchTarget (devs : List (MemoryRange × Device)) (a : Nat) :
    Bus.get_device devs a = dispatchTarget devs a := by
  induction devs with
  | nil => rfl
  | cons p rest ih =>
    obtain ⟨r, d⟩ := p
    rw [Bus.get_device] at ih
    rw [dispatchTarget]
    by_cases hle : r.base_address ≤ a
    · rw [Bus.get_device, List.filter_cons_of_pos (by simpa using hle), List.reverse_cons,
        List.find?_append, List.find?_singleton, ih]
      cases dispatchTarget rest a with
      | some q => rfl
      | none => by_cases hc : MemoryRange.contains r a <;> simp_all
    · have hc : MemoryRange.contains r a = false := by
        by_contra h
        exact hle (MemoryRange.contains_base_le (by simpa using h))
      rw [Bus.get_device, List.filter_cons_of_neg (by simpa using hle), ih]
      cases dispatchTarget rest a with
      | some q => rfl
      | none => simp [hc]

/-- A dispatched entry is a registered entry whose range contains the address. -/
theorem dispatchTarget_mem_contains {devs : List (MemoryRange × Device)} {a : Nat}
    {p : MemoryRange × Device} (h : dispatchTarget devs a = some p) :
    p ∈ devs ∧ p.1.contains a = true := by
  induction devs with
  | nil => simp [dispatchTarget] at h
  | cons q rest ih =>
    obtain ⟨r, d⟩ := q
    rw [dispatchTarget] at h
    cases hrest : dispatchTarget rest a with
    | some q' =>
      rw [hrest] at h
      obtain ⟨hmem, hcon⟩ := ih (hrest.trans h)
      exact ⟨List.mem_cons_of_mem _ hmem, hcon⟩
    | none =>
      rw [hrest] at h
      by_cases hc : MemoryRange.contains r a
      · rw [if_pos hc] at h
        cases h
        exact ⟨List.mem_cons_self _ _, hc⟩
      · rw [if_neg hc] at h
        cases h

/-- If some registered range contains the address, dispatch finds an entry. -/
theorem dispatchTarget_isSome {devs : List (MemoryRange × Device)} {a : Nat}
    {p : MemoryRange × Device} (hmem : p ∈ devs) (hc : p.1.contains a = true) :
    (dispatchTarget devs a).isSome = true := by
  induction devs with
  | nil => cases hmem
  | cons q rest ih =>
    rw [dispatchTarget]
    cases hrest : dispatchTarget rest a with
    | some q' => rfl
    | none =>
      rcases List.mem_cons.mp hmem with h | h
      · subst h
        simp [hc]
      · have hsome := ih h
        rw [hrest] at hsome
        cases hsome

/-- The dispatched entry splits the registry: everything after it fails
`contains`, so the descending scan stops exactly there. -/
theorem dispatchTarget_decomp {devs : List (MemoryRange × Device)} {a : Nat}
    {p : MemoryRange × Device} (h : dispatchTarget devs a = some p) :
    ∃ pre post, devs = pre ++ p :: post ∧ p.1.contains a = true ∧
      ∀ q ∈ post, q.1.contains a = false := by
  induction devs with
  | nil => simp [dispatchTarget] at h
  | cons q rest ih =>
    obtain ⟨r, d⟩ := q
    rw [dispatchTarget] at h
    cases hrest : dispatchTarget rest a with
    | some q' =>
      rw [hrest] at h
      obtain ⟨pre, post, hsplit, hcon, hpost⟩ := ih (hrest.trans h)
      exact ⟨(r, d) :: pre, post, by rw [hsplit]; rfl, hcon, hpost⟩
    | none =>
      rw [hrest] at h
      by_cases hc : MemoryRange.contains r a
      · rw [if_pos hc] at h
        cases h
        refine ⟨[], rest, rfl, hc, fun q hq => ?_⟩
        rcases hq' : q.1.contains a with _ | _
        · rfl
        · have := dispatchTarget_isSome hq hq'
          rw [hrest] at this
          cases this
      · rw [if_neg hc] at h
        cases h

/-- When no registered range contains the address, `Bus::read` over the
registry returns `InvalidAccess` and leaves the registry untouched. -/
theorem busReadGo_of_no_contains {devs : List (MemoryRange × Device)} {a len : Nat}
    (h : ∀ p ∈ devs, p.1.contains a = false) :
    busReadGo devs a len = (.invalidAccess, devs) := by
  induction devs with
  | nil => rfl
  | cons q rest ih =>
    obtain ⟨r, d⟩ := q
    have hany : (rest.any fun p => p.1.contains a) = false :=
      List.any_eq_false.mpr fun p hp => by simp [h p (List.mem_cons_of_mem _ hp)]
    rw [busReadGo, hany]
    simp only [Bool.false_eq_true, if_false, h (r, d) (List.mem_cons_self _ _)]

/-- When no registered range contains the address, `Bus::write` over the
registry returns `InvalidAccess` and leaves the registry untouched. -/
theorem busWriteGo_of_no_contains {devs : List (MemoryRange × Device)} {a : Nat}
    {buf : List Nat} (h : ∀ p ∈ devs, p.1.contains a = false) :
    busWriteGo devs a buf = (.invalidAccess, devs) := by
  induction devs with
  | nil => rfl
  | cons q rest ih =>
    obtain ⟨r, d⟩ := q
    have hany : (rest.any fun p => p.1.contains a) = false :=
      List.any_eq_false.mpr fun p hp => by simp [h p (List.mem_cons_of_mem _ hp)]
    rw [busWriteGo, hany]
    simp only [Bool.false_eq_true, if_false, h (r, d) (List.mem_cons_self _ _)]

/-- Dispatch shape of `Bus::read`: with the registered entry `(r, d)` the
last containing one, the bus delegates to `d` at local offset
`a - r.base_address` and stores `d`'s successor state back in place. -/
theorem busReadGo_dispatch {pre post : List (MemoryRange × Device)}
    {r : MemoryRange} {d : Device} {a len : Nat}
    (hc : r.contains a = true) (hpost : ∀ q ∈ post, q.1.contains a = false) :
    busReadGo (pre ++ (r, d) :: post) a len =
      ((Device.read d (a - r.base_address) len).1,
        pre ++ (r, (Device.read d (a - r.base_address) len).2) :: post) := by
  induction pre with
  | nil =>
    have hany : (post.any fun p => p.1.contains a) = false :=
      List.any_eq_false.mpr fun p hp => by simp [hpost p hp]
    rw [List.nil_append, busReadGo, hany]
    simp only [Bool.false_eq_true, if_false, hc, if_true]
    rfl
  | cons q pre' ih =>
    obtain ⟨r', d'⟩ := q
    have hany : ((pre' ++ (r, d) :: post).any fun p => p.1.contains a) = true :=
      List.any_eq_true.mpr ⟨(r, d), by simp, hc⟩
    rw [List.cons_append, busReadGo, hany, if_pos rfl, ih]
    rfl

/-- Dispatch shape of `Bus::write`, analogously. -/
theorem busWriteGo_dispatch {pre post : List (MemoryRange × Device)}
    {r : MemoryRange} {d : Device} {a : Nat} {buf : List Nat}
    (hc : r.contains a = true) (hpost : ∀ q ∈ post, q.1.contains a = false) :
    busWriteGo (pre ++ (r, d) :: post) a buf =
      ((Device.write d (a - r.base_address) buf).1,
        pre ++ (r, (Device.write d (a - r.base_address) buf).2) :: post) := by
  induction pre with
  | nil =>
    have hany : (post.any fun p => p.1.contains a) = false :=
      List.any_eq_false.mpr fun p hp => by simp [hpost p hp]
    rw [List.nil_append, busWriteGo, hany]
    simp only [Bool.false_eq_true, if_false, hc, if_true]
    rfl
  | cons q pre' ih =>
    obtain ⟨r', d'⟩ := q
    have hany : ((pre' ++ (r, d) :: post).any fun p => p.1.contains a) = true :=
      List.any_eq_true.mpr ⟨(r, d), by simp, hc⟩
    rw [List.cons_append, busWriteGo, hany, if_pos rfl, ih]
    rfl

/-- `Bus::read` never changes the list of registered ranges. -/
theorem busReadGo_map_fst (devs : List (MemoryRange × Device)) (a len : Nat) :
    (busReadGo devs a len).2.map Prod.fst = devs.map Prod.fst := by
  induction devs with
  | nil => rfl
  | cons q rest ih =>
    obtain ⟨r, d⟩ := q
    rw [busReadGo]
    by_cases hany : (rest.any fun p => p.1.contains a) = true
    · rw [if_pos hany]
      cases hgo : busReadGo rest a len with
      | mk res rest' =>
        have := ih
        rw [hgo] at this
        simp [this]
    · rw [if_neg hany]
      by_cases hc : MemoryRange.contains r a
      · rw [if_pos hc]
        cases Device.read d (a - r.base_address) len with
        | mk res d' => simp
      · rw [if_neg hc]

/-- `Bus::write` never changes the list of registered ranges. -/
theorem busWriteGo_map_fst (devs : List (MemoryRange × Device)) (a : Nat) (buf : List Nat) :
    (busWriteGo devs a buf).2.map Prod.fst = devs.map Prod.fst := by
  induction devs with
  | nil => rfl
  | cons q rest ih =>
    obtain ⟨r, d⟩ := q
    rw [busWriteGo]
    by_cases hany : (rest.any fun p => p.1.contains a) = true
    · rw [if_pos hany]
      cases hgo : busWriteGo rest a buf with
      | mk res rest' =>
        have := ih
        rw [hgo] at this
        simp [this]
    · rw [if_neg hany]
      by_cases hc : MemoryRange.contains r a
      · rw [if_pos hc]
        cases Device.write d (a - r.base_address) buf with
        | mk res d' => simp
      · rw [if_neg hc]

/-- Unfolding of `Device.read` at a `Ram` leaf. -/
theorem Device.read_ram (m : RamMap) (ptr len : Nat) :
    Device.read (.ram m) ptr len = ((Ram.read m ptr len).1, .ram (Ram.read m ptr len).2) := by
  rw [Device.read]

/-- Unfolding of `Device.read` at a nested `Bus`. -/
theorem Device.read_bus (devs : List (MemoryRange × Device)) (ptr len : Nat) :
    Device.read (.bus devs) ptr len =
      ((busReadGo devs ptr len).1, .bus (busReadGo devs ptr len).2) := by
  rw [Device.read]

/-- Unfolding of `Device.write` at a `Ram` leaf. -/
theorem Device.write_ram (m : RamMap) (ptr : Nat) (buf : List Nat) :
    Device.write (.ram m) ptr buf =
      ((Ram.write m ptr buf).1, .ram (Ram.write m ptr buf).2) := by
  rw [Device.write]

/-- Unfolding of `Device.write` at a nested `Bus`. -/
theorem Device.write_bus (devs : List (MemoryRange × Device)) (ptr : Nat) (buf : List Nat) :
    Device.write (.bus devs) ptr buf =
      ((busWriteGo devs ptr buf).1, .bus (busWriteGo devs ptr buf).2) := by
  rw [Device.write]

/-! ## Lemmas about the sparse page map -/

theorem ramLookup_store_self (m : RamMap) (pid : Nat) (v : List Nat) :
    ramLookup (ramStore m pid v) pid = some v := by
  induction m with
  | nil => simp [ramStore, ramLookup]
  | cons q rest ih =>
    obtain ⟨k, w⟩ := q
    by_cases hk : k = pid
    · subst hk
      simp [ramStore, ramLookup]
    · simp [ramStore, ramLookup, hk, ih]

theorem ramLookup_store_other {q pid : Nat} (m : RamMap) (v : List Nat) (hne : q ≠ pid) :
    ramLookup (ramStore m pid v) q = ramLookup m q := by
  induction m with
  | nil =>
    simp only [ramStore, ramLookup]
    rw [if_neg fun h => hne h.symm]
  | cons p rest ih =>
    obtain ⟨k, w⟩ := p
    simp only [ramStore]
    by_cases hk : k = pid
    · subst hk
      simp only [if_pos rfl, ramLookup]
      rw [if_neg fun h => hne h.symm, if_neg fun h => hne h.symm]
    · simp only [if_neg hk, ramLookup]
      by_cases hq : k = q
      · rw [if_pos hq, if_pos hq]
      · rw [if_neg hq, if_neg hq, ih]

theorem ramLookup_append_single_self {m : RamMap} {pid : Nat} (v : List Nat)
    (h : ramLookup m pid = none) : ramLookup (m ++ [(pid, v)]) pid = some v := by
  induction m with
  | nil => simp [ramLookup]
  | cons p rest ih =>
    obtain ⟨k, w⟩ := p
    rw [ramLookup] at h
    by_cases hk : k = pid
    · rw [if_pos hk] at h
      cases h
    · rw [if_neg hk] at h
      simpa [ramLookup, hk] using ih h

theorem ramLookup_append_single_other {q pid : Nat} (m : RamMap) (v : List Nat)
    (hne : q ≠ pid) : ramLookup (m ++ [(pid, v)]) q = ramLookup m q := by
  induction m with
  | nil =>
    simp only [List.nil_append, ramLookup]
    rw [if_neg fun h => hne h.symm]
  | cons p rest ih =>
    obtain ⟨k, w⟩ := p
    simp only [List.cons_append, ramLookup]
    by_cases hk : k = q
    · rw [if_pos hk, if_pos hk]
    · rw [if_neg hk, if_neg hk]
      exact ih

/-- Pages invariant of `Ram`: every allocated page has length `PAGE_SIZE`. -/
def ramWF (m : RamMap) : Bool :=
  m.all fun p => decide (p.2.length = Ram.PAGE_SIZE)

theorem ramWF_lookup {m : RamMap} {pid : Nat} {page : List Nat}
    (hwf : ramWF m = true) (h : ramLookup m pid = some page) :
    page.length = Ram.PAGE_SIZE := by
  induction m with
  | nil => cases h
  | cons p rest ih =>
    obtain ⟨k, v⟩ := p
    rw [ramWF, List.all_cons, Bool.and_eq_true] at hwf
    rw [ramLookup] at h
    by_cases hk : k = pid
    · rw [if_pos hk] at h
      cases h
      exact of_decide_eq_true hwf.1
    · rw [if_neg hk] at h
      exact ih hwf.2 h

/-- `ramEnsure` yields a page of length `PAGE_SIZE` (on a well-formed map),
stores it at `pid`, and leaves every other page unchanged. -/
theorem ramEnsure_spec {m : RamMap} {pid : Nat} (hwf : ramWF m = true) :
    (ramEnsure m pid).1.length = Ram.PAGE_SIZE ∧
      ramLookup (ramEnsure m pid).2 pid = some (ramEnsure m pid).1 ∧
      ∀ q, q ≠ pid → ramLookup (ramEnsure m pid).2 q = ramLookup m q := by
  cases h : ramLookup m pid with
  | some page =>
    rw [ramEnsure, h]
    exact ⟨ramWF_lookup hwf h, h, fun q _ => rfl⟩
  | none =>
    rw [ramEnsure, h]
    refine ⟨List.length_replicate _ _, ramLookup_append_single_self _ h, ?_⟩
    exact fun q hq => ramLookup_append_single_other m _ hq

/-- The sliced-splice round trip on a single `Ram`: writing `buf` at `ptr`
and reading `buf.length` bytes back at the same `ptr` returns `buf`,
provided the accessed sub-slice lies within the page. -/
theorem Ram.write_then_read {m : RamMap} {ptr : Nat} {buf : List Nat}
    (hwf : ramWF m = true)
    (hlen : Ram.page_offset ptr + buf.length ≤ Ram.PAGE_SIZE) :
    (Ram.write m ptr buf).1 = .ok () ∧
      (Ram.read (Ram.write m ptr buf).2 ptr buf.length).1 = .ok buf := by
  obtain ⟨hplen, hself, hother⟩ := @ramEnsure_spec m (Ram.page_id ptr) hwf
  simp only [Ram.write]
  set pid := Ram.page_id ptr with hpid
  set poff := Ram.page_offset ptr with hpoff
  set page := (ramEnsure m pid).1 with hpagedef
  set m₁ := (ramEnsure m pid).2 with hm1
  have hle : poff + buf.length ≤ page.length := by
    rw [hplen]; exact hlen
  rw [if_pos hle]
  refine ⟨rfl, ?_⟩
  set page' := page.take poff ++ buf ++ page.drop (poff + buf.length) with hpage'
  have hens2 : ramEnsure (ramStore m₁ pid page') pid = (page', ramStore m₁ pid page') := by
    rw [ramEnsure, ramLookup_store_self]
  have htake : (page.take poff).length = poff :=
    List.length_take_of_le (le_trans (Nat.le_add_right _ _) hle)
  have hlen' : poff + buf.length ≤ page'.length := by
    rw [hpage', List.append_assoc, List.length_append, htake, List.length_append]
    exact Nat.add_le_add_left (Nat.le_add_right _ _) _
  simp only [Ram.read, Ram.page_slice, hens2]
  rw [if_pos hlen']
  have hdrop : page'.drop poff = buf ++ page.drop (poff + buf.length) := by
    rw [hpage', List.append_assoc, List.drop_left' htake]
  rw [hdrop, List.take_left' rfl]

/-- No registered range contains the address iff dispatch fails. -/
theorem dispatchTarget_eq_none_iff {devs : List (MemoryRange × Device)} {a : Nat} :
    dispatchTarget devs a = none ↔ ∀ p ∈ devs, p.1.contains a = false := by
  constructor
  · intro h p hmem
    rcases hc : p.1.contains a with _ | _
    · rfl
    · have := dispatchTarget_isSome hmem hc
      rw [h] at this
      cases this
  · intro h
    cases hd : dispatchTarget devs a with
    | none => rfl
    | some p =>
      obtain ⟨hmem, hc⟩ := dispatchTarget_mem_contains hd
      rw [h p hmem] at hc
      cases hc

/-! ## The `BTreeMap` ordering invariant and `register` -/

/-- The `BTreeMap` invariant on the registry list: keys (base addresses)
strictly ascend, i.e. every entry's base is below all later bases. -/
def basesSorted : List (MemoryRange × Device) → Bool
  | [] => true
  | p :: rest =>
    (rest.all fun q => decide (p.1.base_address < q.1.base_address)) && basesSorted rest

theorem basesSorted_cons {p : MemoryRange × Device} {rest : List (MemoryRange × Device)}
    (h : basesSorted (p :: rest) = true) :
    (∀ q ∈ rest, p.1.base_address < q.1.base_address) ∧ basesSorted rest = true := by
  rw [basesSorted, Bool.and_eq_true, List.all_eq_true] at h
  exact ⟨fun q hq => of_decide_eq_true (h.1 q hq), h.2⟩

/-- `BTreeMap::insert` at an existing key: the held device at that base is
replaced by the newcomer, every other entry is untouched, and in particular
the previously held device is no longer reachable at that base. -/
theorem insertDevice_replaces {devs : List (MemoryRange × Device)}
    {b s₁ : Nat} {d₁ : Device} (s₂ : Nat) (d₂ : Device)
    (hsort : basesSorted devs = true) (hmem : (⟨b, s₁⟩, d₁) ∈ devs) :
    (∃ p ∈ insertDevice devs ⟨b, s₂⟩ d₂, p.1.base_address = b ∧ p.2 = d₂) ∧
      (∀ p ∈ insertDevice devs ⟨b, s₂⟩ d₂, p.1.base_address = b → p.2 = d₂) ∧
      (∀ p ∈ devs, p.1.base_address ≠ b → p ∈ insertDevice devs ⟨b, s₂⟩ d₂) := by
  induction devs with
  | nil => cases hmem
  | cons q rest ih =>
    obtain ⟨r', d'⟩ := q
    obtain ⟨hlt, hsrest⟩ := basesSorted_cons hsort
    rw [insertDevice]
    rcases List.mem_cons.mp hmem with hhead | htail
    · have hb : r'.base_address = b := by
        cases hhead
        rfl
      rw [if_neg (by rw [hb]; exact lt_irrefl b), if_pos hb.symm]
      refine ⟨⟨(r', d₂), List.mem_cons_self _ _, hb, rfl⟩, ?_, ?_⟩
      · intro p hp hpb
        rcases List.mem_cons.mp hp with rfl | hp'
        · rfl
        · exact absurd hpb (Nat.ne_of_gt (hb ▸ hlt p hp'))
      · intro p hp hpb
        rcases List.mem_cons.mp hp with rfl | hp'
        · exact absurd hb hpb
        · exact List.mem_cons_of_mem _ hp'
    · have hblt : r'.base_address < b := hlt _ htail
      rw [if_neg (Nat.not_lt.mpr (le_of_lt hblt)),
        if_neg (fun h : b = r'.base_address => absurd h.symm (Nat.ne_of_lt hblt))]
      obtain ⟨hex, hall, hkeep⟩ := ih hsrest htail
      refine ⟨?_, ?_, ?_⟩
      · obtain ⟨p, hp, hpb, hpd⟩ := hex
        exact ⟨p, List.mem_cons_of_mem _ hp, hpb, hpd⟩
      · intro p hp hpb
        rcases List.mem_cons.mp hp with rfl | hp'
        · exact absurd hpb (Nat.ne_of_lt hblt)
        · exact hall p hp' hpb
      · intro p hp hpb
        rcases List.mem_cons.mp hp with rfl | hp'
        · exact List.mem_cons_self _ _
        · exact List.mem_cons_of_mem _ (hkeep p hp' hpb)

/-! ## Claim theorems -/

/-- C2: in a bus whose registered ranges are pairwise non-overlapping, every
registered entry `(base, size)` is returned by `get_device` for every
address `a` with `base <= a < base + size`, and `read`/`write` at `a`
delegate to that entry's device at local offset `a - base`. -/
theorem C2_dispatch_containment (devs : List (MemoryRange × Device)) (r : MemoryRange)
    (d : Device) (a len : Nat) (buf : List Nat)
    (hmem : (r, d) ∈ devs)
    (hnover : ∀ p ∈ devs, ∀ q ∈ devs, p.1.overlaps q.1 = true → p = q)
    (hwf : r.base_address + r.size < 2 ^ 64)
    (hlo : r.base_address ≤ a) (hhi : a < r.base_address + r.size) :
    Bus.get_device devs a = some (r, d) ∧
      (Device.read (.bus devs) a len).1 = (Device.read d (a - r.base_address) len).1 ∧
      (Device.write (.bus devs) a buf).1 = (Device.write d (a - r.base_address) buf).1 := by
  have hc : r.contains a = true := MemoryRange.contains_of_no_wrap hwf hlo hhi
  have hsome := dispatchTarget_isSome hmem hc
  obtain ⟨p, hp⟩ := Option.isSome_iff_exists.mp hsome
  obtain ⟨hpmem, hpc⟩ := dispatchTarget_mem_contains hp
  have hpe : p = (r, d) :=
    hnover p hpmem (r, d) hmem (MemoryRange.overlaps_of_contains hpc hc)
  subst hpe
  obtain ⟨pre, post, hsplit, _, hpost⟩ := dispatchTarget_decomp hp
  refine ⟨by rw [get_device_eq_dispatchTarget, hp], ?_, ?_⟩
  · rw [Device.read_bus, hsplit, busReadGo_dispatch hc hpost]
  · rw [Device.write_bus, hsplit, busWriteGo_dispatch hc hpost]

/-- Witness for C2 at a concrete one-device bus. -/
theorem C2_dispatch_containment_witness :
    Bus.get_device [(⟨16, 16⟩, .ram [])] 20 = some (⟨16, 16⟩, .ram []) ∧
      (Device.read (.bus [(⟨16, 16⟩, .ram [])]) 20 2).1
        = (Device.read (.ram []) (20 - 16) 2).1 ∧
      (Device.write (.bus [(⟨16, 16⟩, .ram [])]) 20 [1, 2]).1
        = (Device.write (.ram []) (20 - 16) [1, 2]).1 :=
  C2_dispatch_containment [(⟨16, 16⟩, .ram [])] ⟨16, 16⟩ (.ram []) 20 2 [1, 2]
    (List.mem_cons_self _ _)
    (fun p hp q hq _ => by rw [List.mem_singleton.mp hp, List.mem_singleton.mp hq])
    (by decide) (by decide) (by decide)

/-- C4: at an address contained in no registered range, bus `read` and
`write` return `InvalidAccess` and leave every registered device (indeed
the whole bus state) unmodified. -/
theorem C4_out_of_range_failure (devs : List (MemoryRange × Device)) (a len : Nat)
    (buf : List Nat) (h : ∀ p ∈ devs, p.1.contains a = false) :
    Device.read (.bus devs) a len = (.invalidAccess, .bus devs) ∧
      Device.write (.bus devs) a buf = (.invalidAccess, .bus devs) := by
  rw [Device.read_bus, Device.write_bus, busReadGo_of_no_contains h,
    busWriteGo_of_no_contains h]
  exact ⟨rfl, rfl⟩

/-- Witness for C4: address `5` below the only registered range. -/
theorem C4_out_of_range_failure_witness :
    Device.read (.bus [(⟨4096, 4096⟩, .ram [])]) 5 3
        = (.invalidAccess, .bus [(⟨4096, 4096⟩, .ram [])]) ∧
      Device.write (.bus [(⟨4096, 4096⟩, .ram [])]) 5 [1]
        = (.invalidAccess, .bus [(⟨4096, 4096⟩, .ram [])]) :=
  C4_out_of_range_failure [(⟨4096, 4096⟩, .ram [])] 5 3 [1] (by decide)

/-- C9: bus `read`/`write` never mutate the registry: the registered ranges
(and their order, hence the `(MemoryRange, device-slot)` structure) after
any read or write, successful or failed, equal those before it; moreover
the bus state is either untouched or differs only in the device payload of
the single dispatched entry.  Only `register` edits the registry. -/
theorem C9_registry_frame (devs : List (MemoryRange × Device)) (a len : Nat)
    (buf : List Nat) :
    ((Device.read (.bus devs) a len).2).busDevices.map Prod.fst = devs.map Prod.fst ∧
      ((Device.write (.bus devs) a buf).2).busDevices.map Prod.fst = devs.map Prod.fst ∧
      ((Device.read (.bus devs) a len).2 = .bus devs ∨
        ∃ pre post r d d', devs = pre ++ (r, d) :: post ∧
          (Device.read (.bus devs) a len).2 = .bus (pre ++ (r, d') :: post)) ∧
      ((Device.write (.bus devs) a buf).2 = .bus devs ∨
        ∃ pre post r d d', devs = pre ++ (r, d) :: post ∧
          (Device.write (.bus devs) a buf).2 = .bus (pre ++ (r, d') :: post)) := by
  refine ⟨?_, ?_, ?_, ?_⟩
  · rw [Device.read_bus]
    exact busReadGo_map_fst devs a len
  · rw [Device.write_bus]
    exact busWriteGo_map_fst devs a buf
  · cases hd : dispatchTarget devs a with
    | none =>
      left
      rw [Device.read_bus, busReadGo_of_no_contains (dispatchTarget_eq_none_iff.mp hd)]
    | some p =>
      right
      obtain ⟨r, d⟩ := p
      obtain ⟨pre, post, hsplit, hc, hpost⟩ := dispatchTarget_decomp hd
      exact ⟨pre, post, r, d, (Device.read d (a - r.base_address) len).2, hsplit, by
        rw [Device.read_bus, hsplit, busReadGo_dispatch hc hpost]⟩
  · cases hd : dispatchTarget devs a with
    | none =>
      left
      rw [Device.write_bus, busWriteGo_of_no_contains (dispatchTarget_eq_none_iff.mp hd)]
    | some p =>
      right
      obtain ⟨r, d⟩ := p
      obtain ⟨pre, post, hsplit, hc, hpost⟩ := dispatchTarget_decomp hd
      exact ⟨pre, post, r, d, (Device.write d (a - r.base_address) buf).2, hsplit, by
        rw [Device.write_bus, hsplit, busWriteGo_dispatch hc hpost]⟩

/-- C10: a range whose `base_address + size` overflows u64 (wraps modulo
`2 ^ 64`) contains no address at or above its base. -/
theorem C10_overflow_excludes_tail (base size addr : Nat)
    (hbase : base < 2 ^ 64) (hsize : size < 2 ^ 64)
    (hover : 2 ^ 64 < base + size) (haddr : base ≤ addr) :
    MemoryRange.contains ⟨base, size⟩ addr = false := by
  have hpow : (2 : Nat) ^ 64 = 18446744073709551616 := by norm_num
  have h2 : (base + size) % 2 ^ 64 ≤ addr := by
    rw [hpow] at *
    omega
  rw [MemoryRange.contains, decide_eq_false (Nat.not_lt.mpr h2), Bool.and_false]

/-- Witness for C10: the range `[2^64 - 1, 2^64 - 1 + 2)` wraps, and its own
base address is not contained in it. -/
theorem C10_overflow_excludes_tail_witness :
    MemoryRange.contains ⟨18446744073709551615, 2⟩ 18446744073709551615 = false :=
  C10_overflow_excludes_tail 18446744073709551615 2 18446744073709551615
    (by norm_num) (by norm_num) (by norm_num) (by norm_num)

/-- C7: `register` at a base address that already has an entry replaces the
held device: afterwards a device is registered at that base, every entry at
that base holds the newcomer (so the prior device is unreachable there),
and entries at other bases are untouched.  Sizes are not compared. -/
theorem C7_register_same_base (devs : List (MemoryRange × Device)) (b s₁ s₂ : Nat)
    (d₁ d₂ : Device) (hsort : basesSorted devs = true) (hmem : (⟨b, s₁⟩, d₁) ∈ devs) :
    (∃ p ∈ Bus.register devs d₂ b s₂, p.1.base_address = b ∧ p.2 = d₂) ∧
      (∀ p ∈ Bus.register devs d₂ b s₂, p.1.base_address = b → p.2 = d₂) ∧
      (∀ p ∈ devs, p.1.base_address ≠ b → p ∈ Bus.register devs d₂ b s₂) :=
  insertDevice_replaces s₂ d₂ hsort hmem

/-- Witness for C7: re-register base `256` with a different size and device. -/
theorem C7_register_same_base_witness :
    (∃ p ∈ Bus.register [(⟨0, 16⟩, .ram []), (⟨256, 16⟩, .ram [])] (.ram [(0, [7])]) 256 32,
        p.1.base_address = 256 ∧ p.2 = .ram [(0, [7])]) ∧
      (∀ p ∈ Bus.register [(⟨0, 16⟩, .ram []), (⟨256, 16⟩, .ram [])] (.ram [(0, [7])]) 256 32,
        p.1.base_address = 256 → p.2 = .ram [(0, [7])]) ∧
      (∀ p ∈ [(⟨0, 16⟩, (.ram [] : Device)), (⟨256, 16⟩, .ram [])], p.1.base_address ≠ 256 →
        p ∈ Bus.register [(⟨0, 16⟩, .ram []), (⟨256, 16⟩, .ram [])] (.ram [(0, [7])]) 256 32) :=
  C7_register_same_base [(⟨0, 16⟩, .ram []), (⟨256, 16⟩, .ram [])] 256 16 32
    (.ram []) (.ram [(0, [7])]) (by decide)
    (List.mem_cons_of_mem _ (List.mem_cons_self _ _))

/-- C8: accessing a nested bus `B`, registered in parent `P` at base `X`
with size `S`, at global address `X + k` (`k < S`) gives the same result
(value, error, and resulting storage) as accessing `B` directly at `k`. -/
theorem C8_nested_bus_equivalence (pre post B : List (MemoryRange × Device))
    (X S k len : Nat) (buf : List Nat)
    (hk : k < S) (hwf : X + S < 2 ^ 64)
    (hpost : ∀ p ∈ post, p.1.contains (X + k) = false) :
    (Device.read (.bus (pre ++ (⟨X, S⟩, .bus B) :: post)) (X + k) len).1
        = (Device.read (.bus B) k len).1 ∧
      (Device.read (.bus (pre ++ (⟨X, S⟩, .bus B) :: post)) (X + k) len).2
        = .bus (pre ++ (⟨X, S⟩, (Device.read (.bus B) k len).2) :: post) ∧
      (Device.write (.bus (pre ++ (⟨X, S⟩, .bus B) :: post)) (X + k) buf).1
        = (Device.write (.bus B) k buf).1 ∧
      (Device.write (.bus (pre ++ (⟨X, S⟩, .bus B) :: post)) (X + k) buf).2
        = .bus (pre ++ (⟨X, S⟩, (Device.write (.bus B) k buf).2) :: post) := by
  have hc : MemoryRange.contains ⟨X, S⟩ (X + k) = true :=
    MemoryRange.contains_of_no_wrap hwf (Nat.le_add_right _ _)
      (show X + k < X + S by omega)
  have hsub : X + k - X = k := by omega
  refine ⟨?_, ?_, ?_, ?_⟩
  · rw [Device.read_bus, busReadGo_dispatch hc hpost]
    simp only [hsub]
  · rw [Device.read_bus, busReadGo_dispatch hc hpost]
    simp only [hsub]
  · rw [Device.write_bus, busWriteGo_dispatch hc hpost]
    simp only [hsub]
  · rw [Device.write_bus, busWriteGo_dispatch hc hpost]
    simp only [hsub]

/-- Witness for C8 at a concrete two-level bus. -/
theorem C8_nested_bus_equivalence_witness :
    (Device.read (.bus ([] ++ (⟨4096, 4096⟩, .bus [(⟨0, 4096⟩, .ram [])]) :: [])) (4096 + 5) 2).1
        = (Device.read (.bus [(⟨0, 4096⟩, .ram [])]) 5 2).1 ∧
      (Device.read (.bus ([] ++ (⟨4096, 4096⟩, .bus [(⟨0, 4096⟩, .ram [])]) :: [])) (4096 + 5) 2).2
        = .bus ([] ++ (⟨4096, 4096⟩,
            (Device.read (.bus [(⟨0, 4096⟩, .ram [])]) 5 2).2) :: []) ∧
      (Device.write (.bus ([] ++ (⟨4096, 4096⟩, .bus [(⟨0, 4096⟩, .ram [])]) :: []))
          (4096 + 5) [9, 9]).1
        = (Device.write (.bus [(⟨0, 4096⟩, .ram [])]) 5 [9, 9]).1 ∧
      (Device.write (.bus ([] ++ (⟨4096, 4096⟩, .bus [(⟨0, 4096⟩, .ram [])]) :: []))
          (4096 + 5) [9, 9]).2
        = .bus ([] ++ (⟨4096, 4096⟩,
            (Device.write (.bus [(⟨0, 4096⟩, .ram [])]) 5 [9, 9]).2) :: []) :=
  C8_nested_bus_equivalence [] [] [(⟨0, 4096⟩, .ram [])] 4096 4096 5 2 [9, 9]
    (by decide) (by decide) (by decide)

/-- C5 (amended): in a non-overlapping registry, for a range backed by a
`Ram` and any `addr`, `bytes` with `addr` and `addr + bytes.length` inside
the range, such that the access stays within the bounds of the single page
slice the code computes (`page_offset (addr - base) + len <= PAGE_SIZE`),
`write(addr, bytes)` succeeds and an immediate `read(addr, bytes.length)`
returns exactly `bytes`. -/
theorem C5_round_trip (devs : List (MemoryRange × Device)) (r : MemoryRange) (m : RamMap)
    (a : Nat) (bytes : List Nat)
    (hmem : (r, Device.ram m) ∈ devs)
    (hnover : ∀ p ∈ devs, ∀ q ∈ devs, p.1.overlaps q.1 = true → p = q)
    (hwf : r.base_address + r.size < 2 ^ 64)
    (hwm : ramWF m = true)
    (hlo : r.base_address ≤ a)
    (hhi : a + bytes.length ≤ r.base_address + r.size)
    (hpos : 0 < bytes.length)
    (hpage : Ram.page_offset (a - r.base_address) + bytes.length ≤ Ram.PAGE_SIZE) :
    (Device.write (.bus devs) a bytes).1 = .ok () ∧
      (Device.read (Device.write (.bus devs) a bytes).2 a bytes.length).1 = .ok bytes := by
  have hc : r.contains a = true :=
    MemoryRange.contains_of_no_wrap hwf hlo (by omega)
  have hsome := dispatchTarget_isSome hmem hc
  obtain ⟨p, hp⟩ := Option.isSome_iff_exists.mp hsome
  obtain ⟨hpmem, hpc⟩ := dispatchTarget_mem_contains hp
  have hpe : p = (r, Device.ram m) :=
    hnover p hpmem (r, Device.ram m) hmem (MemoryRange.overlaps_of_contains hpc hc)
  subst hpe
  obtain ⟨pre, post, hsplit, _, hpost⟩ := dispatchTarget_decomp hp
  obtain ⟨hwok, hrok⟩ := @Ram.write_then_read m (a - r.base_address) bytes hwm hpage
  rw [Device.write_bus, hsplit, busWriteGo_dispatch hc hpost, Device.write_ram]
  refine ⟨hwok, ?_⟩
  rw [Device.read_bus, busReadGo_dispatch hc hpost, Device.read_ram]
  exact hrok

/-- Witness for C5 at a concrete bus with one `Ram`-backed range. -/
theorem C5_round_trip_witness :
    (Device.write (.bus [(⟨0, 16384⟩, .ram [])]) 5 [1, 2, 3]).1 = .ok () ∧
      (Device.read (Device.write (.bus [(⟨0, 16384⟩, .ram [])]) 5 [1, 2, 3]).2 5 3).1
        = .ok [1, 2, 3] := by
  have h := C5_round_trip [(⟨0, 16384⟩, .ram [])] ⟨0, 16384⟩ [] 5 [1, 2, 3]
    (List.mem_cons_self _ _)
    (fun p hp q hq _ => by rw [List.mem_singleton.mp hp, List.mem_singleton.mp hq])
    (by decide) (by decide) (by decide) (by decide) (by decide) (by decide)
  simpa using h

/-- C5 as literally stated fails: an in-range access whose computed page
slice exceeds one page makes the program panic (slice out of bounds)
instead of round-tripping.  Here the range is `[0, 16384)`, the write is
at `addr = 2048` with `len = 2049`, so `addr + len = 4097 <= 16384` is
inside the range, yet write and read both end in a slice panic. -/
theorem C5_round_trip_counterexample :
    2048 + 2049 ≤ 0 + 16384 ∧
      (Device.read (Device.write (.bus [(⟨0, 16384⟩, .ram [])]) 2048
          (List.replicate 2049 1)).2 2048 2049).1 ≠ .ok (List.replicate 2049 1) := by
  refine ⟨by decide, ?_⟩
  rw [show (Device.write (.bus [(⟨0, 16384⟩, .ram [])]) 2048 (List.replicate 2049 1)).2
      = .bus [(⟨0, 16384⟩, .ram [(0, List.replicate 4096 0)])] from by
    simp [-List.reduceReplicate, Device.write, busWriteGo, Ram.write, ramEnsure, ramLookup,
      Ram.PAGE_SIZE, show Ram.page_id 2048 = 0 from by decide,
      show Ram.page_offset 2048 = 2048 from by decide,
      show MemoryRange.contains ⟨0, 16384⟩ 2048 = true from by decide]]
  rw [show (Device.read (.bus [(⟨0, 16384⟩, .ram [(0, List.replicate 4096 0)])]) 2048 2049).1
      = .sliceError from by
    simp [-List.reduceReplicate, Device.read, busReadGo, Ram.read, Ram.page_slice, ramEnsure,
      ramLookup, Ram.PAGE_SIZE, show Ram.page_id 2048 = 0 from by decide,
      show Ram.page_offset 2048 = 2048 from by decide,
      show MemoryRange.contains ⟨0, 16384⟩ 2048 = true from by decide]]
  intro h
  cases h

/-- C1 fails on the code: `page_id` is `offset >> 12` as claimed, but the
computed page offset is `offset & 0x800` (Rust parses
`1 << PAGE_OFFSET_BITS - 1` as `1 << 11`), not `offset & 0xFFF`: at
`ptr = 5` the code's page offset is `0` while `5 & 0xFFF = 5`, and
`page_slice(5, 3)` returns page bytes `[0, 3)` (= `[1, 2, 3]` below)
instead of the claimed sub-slice `[5, 8)` (= `[6, 7, 8]`). -/
theorem C1_page_offset_mask_eval :
    Ram.page_id 5 = 0 ∧ Ram.page_offset 5 = 0 ∧ (5 : Nat) &&& 0xFFF = 5 ∧
      (Ram.page_slice [(0, 1 :: 2 :: 3 :: 4 :: 5 :: 6 :: 7 :: 8 :: List.replicate 4088 0)]
          5 3).1 = .ok [1, 2, 3] ∧
      (RWResult.ok [1, 2, 3] : RWResult (List Nat)) ≠ .ok [6, 7, 8] := by
  refine ⟨by decide, by decide, by decide, ?_, by decide⟩
  simp [-List.reduceReplicate, Ram.page_slice, ramEnsure, ramLookup,
    show Ram.page_id 5 = 0 from by decide, show Ram.page_offset 5 = 0 from by decide,
    Ram.PAGE_SIZE]

/-- C3 fails on the code: with a `Ram` registered at base `0` with declared
size `16`, an access at offset `8` of length `16` has
`offset + len = 24 > 16`, yet both `read` and `write` return `Ok` (the
`Ram` device never checks the declared size; only the page-slice bounds
can fail, with a panic rather than `InvalidAccess`). -/
theorem C3_no_size_check_eval :
    8 + 16 > 16 ∧
      (Device.read (.bus [(⟨0, 16⟩, .ram [])]) 8 16).1 = .ok (List.replicate 16 0) ∧
      (Device.write (.bus [(⟨0, 16⟩, .ram [])]) 8 (List.replicate 16 1)).1 = .ok () := by
  refine ⟨by decide, ?_, ?_⟩
  · simp [-List.reduceReplicate, Device.read, busReadGo, Ram.read, Ram.page_slice, ramEnsure,
      ramLookup, Ram.PAGE_SIZE,
      show Ram.page_id 8 = 0 from by decide, show Ram.page_offset 8 = 0 from by decide,
      show MemoryRange.contains ⟨0, 16⟩ 8 = true from by decide,
      List.take_replicate, show (16 : Nat) ⊓ 4096 = 16 from by decide]
  · simp [-List.reduceReplicate, Device.write, busWriteGo, Ram.write, ramEnsure, ramLookup,
      Ram.PAGE_SIZE,
      show Ram.page_id 8 = 0 from by decide, show Ram.page_offset 8 = 0 from by decide,
      show MemoryRange.contains ⟨0, 16⟩ 8 = true from by decide]

/-- C6 fails on the code: offset `5` is never written, yet after
`write(3, [7])` a `read(5, 1)` returns `[7]`, not `[0]` — with the
`& 0x800` page-offset mask, offsets `3` and `5` both alias page byte `0`. -/
theorem C6_unwritten_offset_eval :
    (Ram.read ((Ram.write [] 3 [7]).2) 5 1).1 = .ok [7] ∧
      (RWResult.ok [7] : RWResult (List Nat)) ≠ .ok [0] := by
  refine ⟨?_, by decide⟩
  rw [show (Ram.write [] 3 [7]).2 = [(0, 7 :: List.replicate 4095 0)] from by
    simp [-List.reduceReplicate, Ram.write, ramEnsure, ramLookup, ramStore, Ram.PAGE_SIZE,
      show Ram.page_id 3 = 0 from by decide, show Ram.page_offset 3 = 0 from by decide,
      List.drop_replicate]]
  simp [-List.reduceReplicate, Ram.read, Ram.page_slice, ramEnsure, ramLookup, Ram.PAGE_SIZE,
    show Ram.page_id 5 = 0 from by decide, show Ram.page_offset 5 = 0 from by decide]

end BusModel
